import Mathlib

/-!
Verification development for a multithreaded midpoint-rule approximation of π
(source file zad5.cpp).  The program integrates f(x) = 4 / (1 + x^2) over
[0, 1], splitting the range evenly over a number of worker threads and
accumulating the partial results into one shared variable under a mutex.

Modelling conventions.

Scalar model: C++ double values are modelled by the type FV, which is the
rationals extended with +infinity, -infinity and NaN.  Arithmetic on finite
values is exact rational arithmetic (per-operation IEEE-754 rounding is not
modelled; signed zero is not modelled); the special values propagate by the
IEEE-754 rules, which is exactly what the program relies on in its
degenerate steps = 0 path (division of a positive finite value by zero gives
+infinity, and 0 * infinity gives NaN).

For the claims that genuinely hang on IEEE-754 binary64 rounding (the
exactness of num_threads * (1.0 / num_threads), and the strictness of the
bounds on the partial integral), a faithful round-to-nearest, ties-to-even
binary64 rounding function on normal-range fractions is defined further
below (roundFracPos / roundFrac) together with a per-operation rounded
embedding of the integration loop (calculate_partial_integral_d), and used
for those claims.

Integer model: unsigned long long is modelled by Nat together with the
wrap-around conversion applied by operator>> (strtoull semantics) when a
negative field is entered; int is modelled by Int.

Concurrency: each worker computes its partial result independently and the
mutex serialises the additions into total_result; the accumulation order is
scheduler-dependent in the source.  Since the finite arithmetic of the model
is exact, addition is associative and commutative, so the model folds the
contributions in thread-index order; NaN propagation is also order-independent
here because every contribution is NaN in the degenerate path.
-/

/-- Model of a C++ double: a finite (exact rational) value, +infinity,
-infinity, or NaN. -/
inductive FV where
  | fin (q : ℚ)
  | inf
  | ninf
  | nan
deriving DecidableEq, Repr

namespace FV

/-- IEEE-754 addition on extended values; finite addition is exact. -/
def add : FV → FV → FV
  | nan, _ => nan
  | _, nan => nan
  | inf, ninf => nan
  | ninf, inf => nan
  | inf, _ => inf
  | _, inf => inf
  | ninf, _ => ninf
  | _, ninf => ninf
  | fin a, fin b => fin (a + b)

/-- IEEE-754 negation on extended values. -/
def neg : FV → FV
  | nan => nan
  | inf => ninf
  | ninf => inf
  | fin a => fin (-a)

/-- IEEE-754 subtraction, x - y = x + (-y). -/
def sub (x y : FV) : FV := add x (neg y)

/-- IEEE-754 multiplication on extended values; finite multiplication is
exact.  0 * (+-infinity) is NaN. -/
def mul : FV → FV → FV
  | nan, _ => nan
  | _, nan => nan
  | fin a, fin b => fin (a * b)
  | inf, inf => inf
  | inf, ninf => ninf
  | ninf, inf => ninf
  | ninf, ninf => inf
  | inf, fin b => if 0 < b then inf else if b < 0 then ninf else nan
  | fin a, inf => if 0 < a then inf else if a < 0 then ninf else nan
  | ninf, fin b => if 0 < b then ninf else if b < 0 then inf else nan
  | fin a, ninf => if 0 < a then ninf else if a < 0 then inf else nan

/-- IEEE-754 division on extended values; finite-by-nonzero-finite division
is exact.  A positive finite value divided by zero is +infinity, a negative
one is -infinity, and 0/0 is NaN (signed zero is not modelled). -/
def div : FV → FV → FV
  | nan, _ => nan
  | _, nan => nan
  | fin a, fin b =>
      if b = 0 then (if 0 < a then inf else if a < 0 then ninf else nan)
      else fin (a / b)
  | fin _, inf => fin 0
  | fin _, ninf => fin 0
  | inf, fin b => if 0 ≤ b then inf else ninf
  | ninf, fin b => if 0 ≤ b then ninf else inf
  | inf, inf => nan
  | inf, ninf => nan
  | ninf, inf => nan
  | ninf, ninf => nan

instance : Add FV := ⟨add⟩
instance : Neg FV := ⟨neg⟩
instance : Sub FV := ⟨sub⟩
instance : Mul FV := ⟨mul⟩
instance : Div FV := ⟨div⟩

theorem add_def (x y : FV) : x + y = add x y := rfl
theorem sub_def (x y : FV) : x - y = sub x y := rfl
theorem mul_def (x y : FV) : x * y = mul x y := rfl
theorem div_def (x y : FV) : x / y = div x y := rfl

theorem fin_add_fin (a b : ℚ) : fin a + fin b = fin (a + b) := rfl

theorem fin_sub_fin (a b : ℚ) : fin a - fin b = fin (a - b) := by
  show add (fin a) (neg (fin b)) = fin (a - b)
  simp [add, neg, sub_eq_add_neg]

theorem fin_mul_fin (a b : ℚ) : fin a * fin b = fin (a * b) := rfl

theorem fin_div_fin (a b : ℚ) (hb : b ≠ 0) : fin a / fin b = fin (a / b) := by
  show div (fin a) (fin b) = fin (a / b)
  simp [div, hb]

theorem fin_div_zero_pos (a : ℚ) (ha : 0 < a) : fin a / fin 0 = inf := by
  show div (fin a) (fin 0) = inf
  simp [div, ha]

theorem add_nan (x : FV) : x + nan = nan := by
  cases x <;> rfl

theorem nan_add (x : FV) : nan + x = nan := by
  cases x <;> rfl

theorem zero_add_fv (x : FV) : fin 0 + x = x := by
  cases x <;> simp [add_def, add]

theorem fin_zero_mul_inf : fin 0 * inf = nan := by
  show mul (fin 0) inf = nan
  simp [mul]

end FV

/-- Embedding of calculate_partial_integral (zad5.cpp lines 36-44) over the
extended-double model FV.  The loop is the source loop: step_size is
(end - start) / steps, the sample point of iteration i is
start + i * step_size + step_size / 2, and the accumulator sum starts at 0.0
and collects 4.0 / (1.0 + x * x); the result is sum * step_size.  The
unsigned long long counter steps is a Nat; its conversion to double is
modelled exactly. -/
def calculate_partial_integral (start end_ : FV) (steps : ℕ) : FV :=
  let step_size := (end_ - start) / FV.fin (steps : ℚ)
  let sum := (List.range steps).foldl
    (fun (sum : FV) (i : ℕ) =>
      let x := start + FV.fin (i : ℚ) * step_size + step_size / FV.fin 2
      sum + FV.fin 4 / (FV.fin 1 + x * x))
    (FV.fin 0)
  sum * step_size

/-- The same loop of zad5.cpp lines 36-44, specialised to exact rational
arithmetic; this is the value calculate_partial_integral takes on finite
inputs when at least one step is performed (see
calculate_partial_integral_fin below). -/
def calculate_partial_integral_q (start end_ : ℚ) (steps : ℕ) : ℚ :=
  let step_size := (end_ - start) / (steps : ℚ)
  let sum := (List.range steps).foldl
    (fun (sum : ℚ) (i : ℕ) =>
      sum + 4 / (1 + (start + (i : ℚ) * step_size + step_size / 2)
        * (start + (i : ℚ) * step_size + step_size / 2)))
    (0 : ℚ)
  sum * step_size

/-- The error message printed by main on invalid input (zad5.cpp line 68). -/
def errorMessage : String := "Liczba wątków i podziałów musi być dodatnia!"

/-- The work item handed to one spawned thread (zad5.cpp lines 98-101):
its interval start, interval end and step count. -/
structure Dispatch where
  start : FV
  end_ : FV
  steps : ℕ
deriving DecidableEq, Repr

/-- Observable outcome of main: either the validation failure (error text on
standard error, exit status 1, no thread launched, the accumulator never
written) or the successful run (the list of thread dispatches in spawn
order, the printed total, exit status 0). -/
inductive MainOutcome where
  | invalid (stderrText : String) (exitCode : ℕ)
  | ok (dispatches : List Dispatch) (printedTotal : FV) (exitCode : ℕ)
deriving DecidableEq, Repr

namespace MainOutcome

/-- The printed π approximation, when the run succeeded. -/
def printed? : MainOutcome → Option FV
  | invalid _ _ => none
  | ok _ t _ => some t

/-- The thread dispatch list, when the run succeeded. -/
def dispatches? : MainOutcome → Option (List Dispatch)
  | invalid _ _ => none
  | ok d _ _ => some d

/-- Whether the run ended on the validation-failure path. -/
def isInvalid : MainOutcome → Bool
  | invalid _ _ => true
  | ok _ _ _ => false

/-- Exit status of the process. -/
def exitCodeOf : MainOutcome → ℕ
  | invalid _ c => c
  | ok _ _ c => c

end MainOutcome

/-- Embedding of main (zad5.cpp lines 56-118) after the two values have been
read from standard input: num_steps is the stored unsigned long long (a Nat),
num_threads the stored int (an Int).  Validation (line 67) rejects
num_threads <= 0 and num_steps <= 0 (the latter, on an unsigned type, is
num_steps = 0).  Otherwise steps_per_thread = num_steps / num_threads in
truncating integer division (line 74), range_per_thread = 1.0 / num_threads
(line 75), and thread i of 0..num_threads-1 is dispatched on
[i * range_per_thread, (i+1) * range_per_thread] with steps_per_thread steps
(lines 98-102).  Each worker adds its partial integral into total_result
under the mutex; the model folds the contributions in thread-index order,
starting from total_result = 0.0 (line 72), which is faithful up to the
exactness of the finite arithmetic (see the header comment). -/
def mainRun (num_steps : ℕ) (num_threads : ℤ) : MainOutcome :=
  if num_threads ≤ 0 ∨ num_steps ≤ 0 then
    MainOutcome.invalid errorMessage 1
  else
    let steps_per_thread : ℕ := num_steps / num_threads.toNat
    let range_per_thread : FV := FV.fin 1 / FV.fin (num_threads.toNat : ℚ)
    let dispatches : List Dispatch :=
      (List.range num_threads.toNat).map (fun (i : ℕ) =>
        { start := FV.fin (i : ℚ) * range_per_thread
          end_ := FV.fin ((i : ℚ) + 1) * range_per_thread
          steps := steps_per_thread })
    let total_result : FV := dispatches.foldl
      (fun acc d => acc + calculate_partial_integral d.start d.end_ d.steps)
      (FV.fin 0)
    MainOutcome.ok dispatches total_result 0

/-- Model of reading an unsigned long long with operator>> (zad5.cpp line
62): the decimal field, possibly negative, is converted with strtoull
semantics, i.e. reduced modulo 2^64; no stream error is raised for an
in-range negative field. -/
def read_unsigned_long_long (entered : ℤ) : ℕ :=
  (entered % (2 : ℤ) ^ 64).toNat

/-- The program as a function of the two entered fields: num_steps goes
through the unsigned wrap-around conversion, num_threads is stored as the
int entered (zad5.cpp lines 61-64). -/
def mainFromEntered (entered_steps entered_threads : ℤ) : MainOutcome :=
  mainRun (read_unsigned_long_long entered_steps) entered_threads

/-- Global state visible to calculate_partial_integral if it chose to touch
it: the shared accumulator total_result and the mutex (zad5.cpp lines 23 and
72). -/
structure ProgramGlobals where
  result_mutex_locked : Bool
  total_result : FV
deriving DecidableEq, Repr

/-- Embedding of the body of calculate_partial_integral as a transformer of
the global state.  The body (zad5.cpp lines 37-43) mentions neither
result_mutex nor total_result, and writes only its locals sum, step_size and
x, so the state g passes through every statement unchanged and the returned
value is computed from the parameters alone. -/
def calculate_partial_integral_st (g : ProgramGlobals) (start end_ : FV)
    (steps : ℕ) : FV × ProgramGlobals :=
  let step_size := (end_ - start) / FV.fin (steps : ℚ)
  let sum := (List.range steps).foldl
    (fun (sum : FV) (i : ℕ) =>
      let x := start + FV.fin (i : ℚ) * step_size + step_size / FV.fin 2
      sum + FV.fin 4 / (FV.fin 1 + x * x))
    (FV.fin 0)
  (sum * step_size, g)

/-- Binary logarithm on Nat by structural recursion on a fuel argument, so
that it is kernel-reducible; log2Fuel n n is the floor of log2 for n > 0. -/
def log2Fuel : ℕ → ℕ → ℕ
  | 0, _ => 0
  | f + 1, n => if n < 2 then 0 else log2Fuel f (n / 2) + 1

/-- Floor of the binary logarithm of a positive natural number. -/
def natLog2 (n : ℕ) : ℕ := log2Fuel n n

/-- Rounding of the positive fraction a / b (a, b > 0) to IEEE-754 binary64,
round to nearest, ties to even, in the normal range: the result is a pair
(m, ex) whose value is m * 2 ^ ex, with 2^52 <= m <= 2^53 (m = 2^53 when the
rounding carries out of 53 bits; the represented value is exact either way).
Overflow and subnormals are outside the range this development evaluates the
function on. -/
def roundFracPos (a b : ℤ) : ℤ × ℤ :=
  let k : ℤ := (natLog2 a.toNat : ℤ) - (natLog2 b.toNat : ℤ)
  let e : ℤ := if b * 2 ^ k.toNat ≤ a * 2 ^ (-k).toNat then k else k - 1
  let s : ℤ := 52 - e
  let N : ℤ := a * 2 ^ s.toNat
  let D : ℤ := b * 2 ^ (-s).toNat
  let n : ℤ := N / D
  let r2 : ℤ := 2 * (N - D * n)
  let m : ℤ := if r2 < D then n else if D < r2 then n + 1
    else if n % 2 = 0 then n else n + 1
  (m, e - 52)

/-- Rational value of a dyadic pair (m, ex), namely m * 2 ^ ex. -/
def dyadicToRat (d : ℤ × ℤ) : ℚ :=
  (d.1 : ℚ) * 2 ^ d.2.toNat / 2 ^ (-d.2).toNat

/-- Product of a nonnegative integer-valued double and a dyadic double,
rounded once to binary64, as in i * range_per_thread (zad5.cpp lines
99-100); multiplication by 0 is exact. -/
def mulIntD (k : ℤ) (d : ℤ × ℤ) : ℤ × ℤ :=
  if k ≤ 0 then (0, 0)
  else roundFracPos (k * (d.1 * 2 ^ d.2.toNat)) (2 ^ (-d.2).toNat)

/-- The double range_per_thread = 1.0 / num_threads of zad5.cpp line 75
under faithful binary64 rounding. -/
def threadRangeD (t : ℕ) : ℤ × ℤ := roundFracPos 1 t

/-- The double value i * range_per_thread handed to thread i as its interval
start (zad5.cpp line 99) under faithful binary64 rounding. -/
def threadStartD (t i : ℕ) : ℚ := dyadicToRat (mulIntD (i : ℤ) (threadRangeD t))

/-- The double value (i + 1) * range_per_thread handed to thread i as its
interval end (zad5.cpp line 100) under faithful binary64 rounding. -/
def threadEndD (t i : ℕ) : ℚ :=
  dyadicToRat (mulIntD ((i : ℤ) + 1) (threadRangeD t))

/-- Rounding of a fraction a / b (b > 0) to binary64, extending roundFracPos
to zero and negative numerators by exactness of 0 and sign symmetry of
round to nearest, ties to even. -/
def roundFrac (a b : ℤ) : ℤ × ℤ :=
  if a = 0 then (0, 0)
  else if 0 < a then roundFracPos a b
  else
    let r := roundFracPos (-a) b
    (-r.1, r.2)

/-- Fraction (numerator, power-of-two denominator) whose quotient is the
value of a dyadic pair. -/
def toFrac (d : ℤ × ℤ) : ℤ × ℤ :=
  (d.1 * 2 ^ d.2.toNat, 2 ^ (-d.2).toNat)

/-- Binary64 addition of dyadic doubles: the exact sum, rounded once. -/
def dAdd (x y : ℤ × ℤ) : ℤ × ℤ :=
  roundFrac ((toFrac x).1 * (toFrac y).2 + (toFrac y).1 * (toFrac x).2)
    ((toFrac x).2 * (toFrac y).2)

/-- Binary64 subtraction of dyadic doubles: x + (-y), negation being
exact. -/
def dSub (x y : ℤ × ℤ) : ℤ × ℤ := dAdd x (-y.1, y.2)

/-- Binary64 multiplication of dyadic doubles: the exact product, rounded
once. -/
def dMul (x y : ℤ × ℤ) : ℤ × ℤ :=
  roundFrac ((toFrac x).1 * (toFrac y).1) ((toFrac x).2 * (toFrac y).2)

/-- Binary64 division of dyadic doubles (nonzero divisor): the exact
quotient, rounded once. -/
def dDiv (x y : ℤ × ℤ) : ℤ × ℤ :=
  roundFrac ((toFrac x).1 * (toFrac y).2) ((toFrac x).2 * (toFrac y).1)

/-- Conversion of an unsigned integer to a binary64 double (exact below
2^53, rounded above), as applied to steps, i and the literals of the
loop. -/
def dOfNat (n : ℕ) : ℤ × ℤ := roundFrac (n : ℤ) 1

/-- Embedding of calculate_partial_integral (zad5.cpp lines 36-44) with
faithful per-operation binary64 rounding, on dyadic doubles in the normal
range with steps >= 1 (the FV embedding covers the degenerate steps = 0
path).  Every source operation rounds once: step_size = (end - start) /
steps, x = (start + i * step_size) + step_size / 2, the accumulator
collects 4 / (1 + x * x) starting from 0.0, and the result is
sum * step_size. -/
def calculate_partial_integral_d (start end_ : ℤ × ℤ) (steps : ℕ) : ℤ × ℤ :=
  let step_size := dDiv (dSub end_ start) (dOfNat steps)
  let sum := (List.range steps).foldl
    (fun (sum : ℤ × ℤ) (i : ℕ) =>
      let x := dAdd (dAdd start (dMul (dOfNat i) step_size))
        (dDiv step_size (dOfNat 2))
      dAdd sum (dDiv (dOfNat 4) (dAdd (dOfNat 1) (dMul x x))))
    (0, 0)
  dMul sum step_size

/-- The claim C2 formula, written from the spec wording: step_size =
(end - start) / steps, sample points x_i = start + i * step_size +
step_size / 2 for i in 0..steps-1, result (sum of 4 / (1 + x_i ^ 2)) *
step_size. -/
def midpoint_rule_spec (start end_ : ℚ) (steps : ℕ) : ℚ :=
  (∑ i in Finset.range steps,
    4 / (1 + (start + (i : ℚ) * ((end_ - start) / (steps : ℚ))
      + ((end_ - start) / (steps : ℚ)) / 2) ^ 2))
  * ((end_ - start) / (steps : ℚ))

/-- The partial result claim C1 attributes to thread i: the partial integral
over [i * (1 / num_threads), (i + 1) * (1 / num_threads)] with
num_steps / num_threads (truncated) steps. -/
def claimed_partial_result (num_steps num_threads i : ℕ) : FV :=
  calculate_partial_integral
    (FV.fin ((i : ℚ) * (1 / (num_threads : ℚ))))
    (FV.fin (((i : ℚ) + 1) * (1 / (num_threads : ℚ))))
    (num_steps / num_threads)

/-- The total claim C1 describes: the accumulator starts at 0 and collects
the num_threads partial results. -/
def claimed_total (num_steps num_threads : ℕ) : FV :=
  (List.range num_threads).foldl
    (fun acc i => acc + claimed_partial_result num_steps num_threads i)
    (FV.fin 0)

/-- The dispatch list main builds for positive inputs, with the arithmetic
of lines 74-75 and 99-100 carried out. -/
def posDispatches (num_steps num_threads : ℕ) : List Dispatch :=
  (List.range num_threads).map (fun (i : ℕ) =>
    { start := FV.fin ((i : ℚ) * (1 / (num_threads : ℚ)))
      end_ := FV.fin (((i : ℚ) + 1) * (1 / (num_threads : ℚ)))
      steps := num_steps / num_threads })

/-- Accumulation of the workers' contributions into total_result, starting
from 0.0 (zad5.cpp lines 72 and 91-95), in thread-index order. -/
def accumulate (l : List Dispatch) : FV :=
  l.foldl (fun acc d => acc + calculate_partial_integral d.start d.end_ d.steps)
    (FV.fin 0)

/-! Helper lemmas shared by the claim theorems. -/

theorem FV.fin_div_two (a : ℚ) : FV.fin a / FV.fin 2 = FV.fin (a / 2) :=
  FV.fin_div_fin a 2 two_ne_zero

theorem FV.fin_four_div_one_add_sq (x : ℚ) :
    FV.fin 4 / FV.fin (1 + x * x) = FV.fin (4 / (1 + x * x)) :=
  FV.fin_div_fin 4 (1 + x * x)
    (ne_of_gt (by nlinarith [mul_self_nonneg x] : (0 : ℚ) < 1 + x * x))

theorem foldl_fin_step (f : ℚ → ℕ → ℚ) (g : FV → ℕ → FV)
    (hg : ∀ a i, g (FV.fin a) i = FV.fin (f a i)) :
    ∀ (l : List ℕ) (a : ℚ), l.foldl g (FV.fin a) = FV.fin (l.foldl f a) := by
  intro l
  induction l with
  | nil => intro a; rfl
  | cons x xs ih =>
      intro a
      simp only [List.foldl_cons, hg]
      exact ih (f a x)

/-- On finite inputs with at least one step the extended-value loop stays
finite and agrees with the exact rational loop. -/
theorem calculate_partial_integral_fin (s e : ℚ) (n : ℕ) (hn : n ≠ 0) :
    calculate_partial_integral (FV.fin s) (FV.fin e) n
      = FV.fin (calculate_partial_integral_q s e n) := by
  have hnq : (n : ℚ) ≠ 0 := Nat.cast_ne_zero.mpr hn
  simp only [calculate_partial_integral, calculate_partial_integral_q]
  rw [FV.fin_sub_fin, FV.fin_div_fin _ _ hnq]
  set ss : ℚ := (e - s) / (n : ℚ) with hss
  have key := foldl_fin_step
    (fun (sum : ℚ) (i : ℕ) =>
      sum + 4 / (1 + (s + (i : ℚ) * ss + ss / 2) * (s + (i : ℚ) * ss + ss / 2)))
    (fun (sum : FV) (i : ℕ) =>
      sum + FV.fin 4 / (FV.fin 1
        + (FV.fin s + FV.fin (i : ℚ) * FV.fin ss + FV.fin ss / FV.fin 2)
        * (FV.fin s + FV.fin (i : ℚ) * FV.fin ss + FV.fin ss / FV.fin 2)))
    (by
      intro a i
      simp only [FV.fin_mul_fin, FV.fin_div_two, FV.fin_add_fin,
        FV.fin_four_div_one_add_sq])
  rw [key, FV.fin_mul_fin]

theorem foldl_add_eq_sum (f : ℕ → ℚ) :
    ∀ (n : ℕ) (a : ℚ),
      (List.range n).foldl (fun acc i => acc + f i) a
        = a + ∑ i in Finset.range n, f i := by
  intro n
  induction n with
  | zero => intro a; simp
  | succ m ih =>
      intro a
      rw [List.range_succ, List.foldl_append, ih, Finset.sum_range_succ]
      simp [add_assoc]

/-- With zero steps and a nonempty interval the loop divides by zero:
step_size becomes +infinity, the empty sum is 0.0, and the returned product
0.0 * infinity is NaN. -/
theorem calculate_partial_integral_zero_steps (a b : ℚ) (hab : a < b) :
    calculate_partial_integral (FV.fin a) (FV.fin b) 0 = FV.nan := by
  simp only [calculate_partial_integral, List.range_zero, List.foldl_nil,
    Nat.cast_zero]
  rw [FV.fin_sub_fin, FV.fin_div_zero_pos (b - a) (sub_pos.mpr hab)]
  exact FV.fin_zero_mul_inf

theorem foldl_add_all_nan (g : Dispatch → FV) :
    ∀ (l : List Dispatch) (acc : FV), l ≠ [] → (∀ d ∈ l, g d = FV.nan) →
      l.foldl (fun acc d => acc + g d) acc = FV.nan := by
  intro l
  induction l with
  | nil => intro acc h; exact absurd rfl h
  | cons d ds ih =>
      intro acc _ hall
      have hd : g d = FV.nan := hall d (List.mem_cons_self d ds)
      by_cases hds : ds = []
      · subst hds
        simp [hd, FV.add_nan]
      · simp only [List.foldl_cons]
        exact ih _ hds (fun d' hd' => hall d' (List.mem_cons_of_mem d hd'))

/-- For accepted inputs main reaches the dispatch loop and produces the
dispatch list of lines 98-102 and the accumulated total. -/
theorem mainRun_pos_eq (num_steps num_threads : ℕ) (hs : 1 ≤ num_steps)
    (ht : 1 ≤ num_threads) :
    mainRun num_steps (num_threads : ℤ)
      = MainOutcome.ok (posDispatches num_steps num_threads)
          (accumulate (posDispatches num_steps num_threads)) 0 := by
  have htq : (num_threads : ℚ) ≠ 0 :=
    Nat.cast_ne_zero.mpr (Nat.one_le_iff_ne_zero.mp ht)
  simp only [mainRun]
  rw [if_neg (by
    rintro (h | h)
    · omega
    · omega)]
  simp only [Int.toNat_natCast, posDispatches, accumulate]
  rw [FV.fin_div_fin 1 (num_threads : ℚ) htq]
  simp only [FV.fin_mul_fin]

/-- The exact-arithmetic loop computes the midpoint-rule formula of the
spec: the fold of the samples equals the indexed sum. -/
theorem calculate_partial_integral_q_eq_spec (s e : ℚ) (n : ℕ) :
    calculate_partial_integral_q s e n = midpoint_rule_spec s e n := by
  simp only [calculate_partial_integral_q, midpoint_rule_spec]
  rw [foldl_add_eq_sum
    (fun i => 4 / (1 + (s + (i : ℚ) * ((e - s) / (n : ℚ)) + (e - s) / (n : ℚ) / 2)
      * (s + (i : ℚ) * ((e - s) / (n : ℚ)) + (e - s) / (n : ℚ) / 2)))]
  rw [zero_add]
  congr 1
  refine Finset.sum_congr rfl (fun i _ => ?_)
  ring

theorem integrand_bounds (x : ℚ) (hx0 : 0 < x) (hx1 : x < 1) :
    2 < 4 / (1 + x * x) ∧ 4 / (1 + x * x) < 4 := by
  have hd : (0 : ℚ) < 1 + x * x := by nlinarith
  constructor
  · rw [lt_div_iff₀ hd]; nlinarith
  · rw [div_lt_iff₀ hd]; nlinarith

/-- Strict bounds for the exact midpoint sum on a subinterval of [0, 1]. -/
theorem calc_q_bounds (s e : ℚ) (n : ℕ) (h0 : 0 ≤ s) (hse : s < e)
    (he : e ≤ 1) (hn : 1 ≤ n) :
    2 * (e - s) < calculate_partial_integral_q s e n ∧
    calculate_partial_integral_q s e n < 4 * (e - s) := by
  have hn0 : n ≠ 0 := by omega
  have hnpos : (0 : ℚ) < (n : ℚ) := by exact_mod_cast Nat.pos_of_ne_zero hn0
  simp only [calculate_partial_integral_q]
  rw [foldl_add_eq_sum
    (fun i => 4 / (1 + (s + (i : ℚ) * ((e - s) / (n : ℚ)) + (e - s) / (n : ℚ) / 2)
      * (s + (i : ℚ) * ((e - s) / (n : ℚ)) + (e - s) / (n : ℚ) / 2)))]
  rw [zero_add]
  set h : ℚ := (e - s) / (n : ℚ) with hh
  have hhpos : 0 < h := div_pos (sub_pos.mpr hse) hnpos
  have hnh : (n : ℚ) * h = e - s := by
    rw [hh]; field_simp
  have hbound : ∀ i ∈ Finset.range n,
      2 < 4 / (1 + (s + (i : ℚ) * h + h / 2) * (s + (i : ℚ) * h + h / 2)) ∧
      4 / (1 + (s + (i : ℚ) * h + h / 2) * (s + (i : ℚ) * h + h / 2)) < 4 := by
    intro i hi
    have hi' : (i : ℚ) ≤ (n : ℚ) - 1 := by
      have : i + 1 ≤ n := Finset.mem_range.mp hi
      have := (Nat.cast_le (α := ℚ)).mpr this
      push_cast at this
      linarith
    have hx0 : 0 < s + (i : ℚ) * h + h / 2 := by
      have : 0 ≤ (i : ℚ) * h := mul_nonneg (Nat.cast_nonneg i) hhpos.le
      linarith
    have hx1 : s + (i : ℚ) * h + h / 2 < 1 := by
      have hmul : (i : ℚ) * h ≤ ((n : ℚ) - 1) * h :=
        mul_le_mul_of_nonneg_right hi' hhpos.le
      have : s + (i : ℚ) * h + h / 2 ≤ e - h / 2 := by
        have hexp : ((n : ℚ) - 1) * h = (e - s) - h := by
          rw [sub_mul, hnh]; ring
        linarith
      linarith
    exact integrand_bounds _ hx0 hx1
  have hne : (Finset.range n).Nonempty := Finset.nonempty_range_iff.mpr hn0
  have hlo : ((n : ℚ)) * 2 < ∑ i in Finset.range n,
      4 / (1 + (s + (i : ℚ) * h + h / 2) * (s + (i : ℚ) * h + h / 2)) := by
    have step : (∑ _i in Finset.range n, (2 : ℚ)) < ∑ i in Finset.range n,
        4 / (1 + (s + (i : ℚ) * h + h / 2) * (s + (i : ℚ) * h + h / 2)) :=
      Finset.sum_lt_sum_of_nonempty hne (fun i hi => (hbound i hi).1)
    simpa [Finset.sum_const, Finset.card_range, nsmul_eq_mul, mul_comm] using step
  have hhi : (∑ i in Finset.range n,
      4 / (1 + (s + (i : ℚ) * h + h / 2) * (s + (i : ℚ) * h + h / 2)))
        < ((n : ℚ)) * 4 := by
    have step : (∑ i in Finset.range n,
        4 / (1 + (s + (i : ℚ) * h + h / 2) * (s + (i : ℚ) * h + h / 2)))
        < ∑ _i in Finset.range n, (4 : ℚ) :=
      Finset.sum_lt_sum_of_nonempty hne (fun i hi => (hbound i hi).2)
    simpa [Finset.sum_const, Finset.card_range, nsmul_eq_mul, mul_comm] using step
  constructor
  · have := mul_lt_mul_of_pos_right hlo hhpos
    calc 2 * (e - s) = (n : ℚ) * 2 * h := by rw [← hnh]; ring
    _ < _ := this
  · have := mul_lt_mul_of_pos_right hhi hhpos
    calc (∑ i in Finset.range n,
        4 / (1 + (s + (i : ℚ) * h + h / 2) * (s + (i : ℚ) * h + h / 2))) * h
        < (n : ℚ) * 4 * h := this
    _ = 4 * (e - s) := by rw [mul_assoc, mul_comm (4:ℚ), ← mul_assoc, hnh]; ring

theorem accumulate_posDispatches (num_steps num_threads : ℕ) :
    accumulate (posDispatches num_steps num_threads)
      = claimed_total num_steps num_threads := by
  simp only [accumulate, posDispatches, claimed_total, claimed_partial_result,
    List.foldl_map]

/-! The claim theorems. -/

/-- C1: for every accepted input pair (num_steps >= 1, num_threads >= 1) the
printed PI approximation is the accumulation, started from 0, of exactly
num_threads partial results, the i-th being calculate_partial_integral at
start = i * (1 / num_threads), end = (i + 1) * (1 / num_threads) and
steps = num_steps / num_threads (truncating division). -/
theorem claim_C1_total_is_sum_of_partials (num_steps num_threads : ℕ)
    (hs : 1 ≤ num_steps) (ht : 1 ≤ num_threads) :
    (mainRun num_steps (num_threads : ℤ)).printed?
        = some (claimed_total num_steps num_threads) ∧
    (mainRun num_steps (num_threads : ℤ)).dispatches?.map List.length
        = some num_threads := by
  rw [mainRun_pos_eq _ _ hs ht]
  constructor
  · simp [MainOutcome.printed?, accumulate_posDispatches]
  · simp [MainOutcome.dispatches?, posDispatches]

theorem claim_C1_witness :
    1 ≤ 4 ∧ 1 ≤ 2 ∧
      ((mainRun 4 ((2 : ℕ) : ℤ)).printed? = some (claimed_total 4 2) ∧
        (mainRun 4 ((2 : ℕ) : ℤ)).dispatches?.map List.length = some 2) :=
  ⟨by decide, by decide,
    claim_C1_total_is_sum_of_partials 4 2 (by decide) (by decide)⟩

/-- C2: for start <= end and steps >= 1, calculate_partial_integral returns
the midpoint-rule value (sum over i < steps of 4 / (1 + x_i ^ 2)) *
step_size with step_size = (end - start) / steps and x_i = start +
i * step_size + step_size / 2 (arithmetic taken exactly in the model). -/
theorem claim_C2_returns_midpoint_formula (s e : ℚ) (n : ℕ)
    (hse : s ≤ e) (hn : 1 ≤ n) :
    calculate_partial_integral (FV.fin s) (FV.fin e) n
      = FV.fin (midpoint_rule_spec s e n) := by
  rw [calculate_partial_integral_fin s e n (by omega),
    calculate_partial_integral_q_eq_spec]

theorem claim_C2_witness :
    (0 : ℚ) ≤ 1 ∧ 1 ≤ 1 ∧
      calculate_partial_integral (FV.fin 0) (FV.fin 1) 1
        = FV.fin (midpoint_rule_spec 0 1 1) :=
  ⟨by norm_num, le_refl 1,
    claim_C2_returns_midpoint_formula 0 1 1 (by norm_num) (le_refl 1)⟩

/-- C3: whenever the stored num_threads <= 0 or the stored num_steps <= 0,
main prints the Polish error message to standard error and exits with
status 1, with no thread dispatched and the accumulator never written. -/
theorem claim_C3_invalid_input_rejected (num_steps : ℕ) (num_threads : ℤ)
    (h : num_threads ≤ 0 ∨ num_steps ≤ 0) :
    mainRun num_steps num_threads = MainOutcome.invalid errorMessage 1 ∧
    (mainRun num_steps num_threads).dispatches? = none ∧
    (mainRun num_steps num_threads).printed? = none ∧
    (mainRun num_steps num_threads).exitCodeOf = 1 := by
  have hmain : mainRun num_steps num_threads
      = MainOutcome.invalid errorMessage 1 := by
    simp only [mainRun, if_pos h]
  exact ⟨hmain, by rw [hmain]; rfl, by rw [hmain]; rfl, by rw [hmain]; rfl⟩

theorem claim_C3_witness :
    ((5 : ℤ) ≤ 0 ∨ (0 : ℕ) ≤ 0) ∧
      (mainRun 0 5 = MainOutcome.invalid errorMessage 1 ∧
        (mainRun 0 5).dispatches? = none ∧
        (mainRun 0 5).printed? = none ∧
        (mainRun 0 5).exitCodeOf = 1) :=
  ⟨Or.inr (le_refl 0), claim_C3_invalid_input_rejected 0 5 (Or.inr (le_refl 0))⟩

/-- C4: every thread is dispatched exactly floor(num_steps / num_threads)
steps; the remainder num_steps mod num_threads is dropped, so
num_threads * (num_steps / num_threads) of the requested steps are computed
(at (10, 3): 3 steps each, 9 of 10 computed). -/
theorem claim_C4_steps_truncated (num_steps num_threads : ℕ)
    (hs : 1 ≤ num_steps) (ht : 1 ≤ num_threads) :
    (mainRun num_steps (num_threads : ℤ)).dispatches?.map
        (fun l => l.map Dispatch.steps)
      = some (List.replicate num_threads (num_steps / num_threads)) ∧
    num_threads * (num_steps / num_threads) + num_steps % num_threads
      = num_steps ∧
    num_steps % num_threads < num_threads := by
  refine ⟨?_, Nat.div_add_mod num_steps num_threads, Nat.mod_lt _ (by omega)⟩
  rw [mainRun_pos_eq _ _ hs ht]
  simp [MainOutcome.dispatches?, posDispatches, List.map_map,
    Function.comp_def, List.map_const', List.length_range]

theorem claim_C4_witness :
    1 ≤ 10 ∧ 1 ≤ 3 ∧
      ((mainRun 10 ((3 : ℕ) : ℤ)).dispatches?.map
          (fun l => l.map Dispatch.steps)
        = some (List.replicate 3 3) ∧
      3 * 3 + 10 % 3 = 10 ∧
      10 % 3 < 3) :=
  ⟨by decide, by decide, claim_C4_steps_truncated 10 3 (by decide) (by decide)⟩

/-- C5: for 1 <= num_steps < num_threads validation accepts the input but
integer division makes steps_per_thread = 0, every worker is dispatched
with steps = 0, calculate_partial_integral divides by zero producing an
infinite step_size, the partial results are NaN (0.0 * infinity) and the
printed total is NaN. -/
theorem claim_C5_zero_steps_per_thread_nan (num_steps num_threads : ℕ)
    (hs : 1 ≤ num_steps) (hst : num_steps < num_threads) :
    (mainRun num_steps (num_threads : ℤ)).printed? = some FV.nan ∧
    (mainRun num_steps (num_threads : ℤ)).dispatches?.map
        (fun l => l.map Dispatch.steps)
      = some (List.replicate num_threads 0) := by
  have ht : 1 ≤ num_threads := le_of_lt (lt_of_le_of_lt hs hst)
  have hdiv : num_steps / num_threads = 0 := Nat.div_eq_of_lt hst
  have htq : (0 : ℚ) < (num_threads : ℚ) := by
    exact_mod_cast Nat.pos_of_ne_zero (by omega)
  rw [mainRun_pos_eq _ _ hs ht]
  constructor
  · simp only [MainOutcome.printed?, Option.some.injEq]
    unfold accumulate
    apply foldl_add_all_nan
      (fun d => calculate_partial_integral d.start d.end_ d.steps)
    · simp only [posDispatches, ne_eq, List.map_eq_nil_iff,
        List.range_eq_nil]
      omega
    · intro d hd
      simp only [posDispatches, List.mem_map, List.mem_range] at hd
      obtain ⟨i, _, rfl⟩ := hd
      simp only [hdiv]
      apply calculate_partial_integral_zero_steps
      have hr : (0 : ℚ) < 1 / (num_threads : ℚ) := by positivity
      nlinarith
  · simp [MainOutcome.dispatches?, posDispatches, hdiv, List.map_map,
      Function.comp_def, List.map_const', List.length_range]

theorem claim_C5_witness :
    1 ≤ 1 ∧ 1 < 2 ∧
      ((mainRun 1 ((2 : ℕ) : ℤ)).printed? = some FV.nan ∧
        (mainRun 1 ((2 : ℕ) : ℤ)).dispatches?.map
            (fun l => l.map Dispatch.steps)
          = some (List.replicate 2 0)) :=
  ⟨le_refl 1, by decide,
    claim_C5_zero_steps_per_thread_nan 1 2 (le_refl 1) (by decide)⟩

/-- C6 (failing part): entering the negative value -5 for num_steps does
NOT produce InvalidInput.  operator>> converts the field with strtoull
semantics, so -5 wraps to 2^64 - 5, which passes the num_steps <= 0 check
(vacuous on an unsigned type except for 0), and the program goes on to
dispatch threads and exit with status 0 instead of 1. -/
theorem claim_C6_negative_steps_wrap_accepted :
    read_unsigned_long_long (-5) = 18446744073709551611 ∧
    (mainFromEntered (-5) 2).isInvalid = false ∧
    (mainFromEntered (-5) 2).exitCodeOf = 0 := by
  refine ⟨by decide, ?_, ?_⟩
  · unfold mainFromEntered mainRun
    rw [if_neg (by decide)]
    rfl
  · unfold mainFromEntered mainRun
    rw [if_neg (by decide)]
    rfl

/-- C7: with thread_count = 1 the printed result is exactly the single
partial integral over [0.0, 1.0] with all num_steps steps, the one worker
being dispatched on start = 0.0, end = 1.0, steps = num_steps, and its
result added to the 0.0 accumulator. -/
theorem claim_C7_single_thread_equals_single_call (num_steps : ℕ)
    (hs : 1 ≤ num_steps) :
    (mainRun num_steps (1 : ℤ)).printed?
      = some (calculate_partial_integral (FV.fin 0) (FV.fin 1) num_steps) := by
  have h := mainRun_pos_eq num_steps 1 hs (le_refl 1)
  rw [show ((1 : ℕ) : ℤ) = (1 : ℤ) from rfl] at h
  rw [h]
  simp only [MainOutcome.printed?, Option.some.injEq]
  unfold accumulate posDispatches
  simp [show List.range 1 = [0] by decide, Nat.div_one, FV.zero_add_fv]

theorem claim_C7_witness :
    1 ≤ 3 ∧
      (mainRun 3 (1 : ℤ)).printed?
        = some (calculate_partial_integral (FV.fin 0) (FV.fin 1) 3) :=
  ⟨by decide, claim_C7_single_thread_equals_single_call 3 (by decide)⟩

set_option maxRecDepth 4000 in
/-- C8 (counterexample): the claimed strict upper bound
result < 4 * (end - start) is false of the binary64 program.  At
start = 0.0, end = 2^-30, steps = 1 the sample is x = 2^-31, the exact
1 + x * x = 1 + 2^-62 rounds back to exactly 1.0 (it is below the midpoint
1 + 2^-53 of the last place), the sample value is exactly 4.0, and the
returned result is exactly 4 * (end - start) = 2^-28, not strictly less. -/
theorem claim_C8_counterexample :
    dyadicToRat (calculate_partial_integral_d (0, 0) (1, -30) 1)
        = 4 * ((1 : ℚ) / 2 ^ 30 - 0) ∧
    ¬(dyadicToRat (calculate_partial_integral_d (0, 0) (1, -30) 1)
        < 4 * ((1 : ℚ) / 2 ^ 30 - 0)) := by
  have h : calculate_partial_integral_d (0, 0) (1, -30) 1
      = (4503599627370496, -80) := by decide
  have hval : dyadicToRat (calculate_partial_integral_d (0, 0) (1, -30) 1)
      = 4 * ((1 : ℚ) / 2 ^ 30 - 0) := by
    rw [h]
    unfold dyadicToRat
    have h1 : ((-80 : ℤ)).toNat = 0 := by decide
    have h2 : ((- -80 : ℤ)).toNat = 80 := by decide
    have h3 : ((80 : ℤ)).toNat = 80 := by decide
    norm_num [h1, h2, h3]
  exact ⟨hval, by rw [hval]; exact lt_irrefl _⟩

/-- C8 (amended): for steps >= 1 and 0 <= start < end <= 1 the exact value
of the computed midpoint sum lies strictly between 0 and 4 * (end - start)
and within [2 * (end - start), 4 * (end - start)], because the integrand
4 / (1 + x^2) lies in [2, 4] on [0, 1]; under binary64 rounding only the
closed bounds survive: the computed result can attain 4 * (end - start)
exactly (see the counterexample at start = 0, end = 2^-30, steps = 1). -/
theorem claim_C8_result_bounds (s e : ℚ) (n : ℕ) (h0 : 0 ≤ s) (hse : s < e)
    (he : e ≤ 1) (hn : 1 ≤ n) :
    calculate_partial_integral (FV.fin s) (FV.fin e) n
        = FV.fin (calculate_partial_integral_q s e n) ∧
    0 < calculate_partial_integral_q s e n ∧
    calculate_partial_integral_q s e n < 4 * (e - s) ∧
    2 * (e - s) ≤ calculate_partial_integral_q s e n ∧
    calculate_partial_integral_q s e n ≤ 4 * (e - s) := by
  obtain ⟨hlo, hhi⟩ := calc_q_bounds s e n h0 hse he hn
  have hpos : (0 : ℚ) < e - s := sub_pos.mpr hse
  exact ⟨calculate_partial_integral_fin s e n (by omega),
    by nlinarith, hhi, hlo.le, hhi.le⟩

theorem claim_C8_witness :
    (0 : ℚ) ≤ 0 ∧ (0 : ℚ) < 1 ∧ (1 : ℚ) ≤ 1 ∧ 1 ≤ 1 ∧
      (calculate_partial_integral (FV.fin 0) (FV.fin 1) 1
          = FV.fin (calculate_partial_integral_q 0 1 1) ∧
        0 < calculate_partial_integral_q 0 1 1 ∧
        calculate_partial_integral_q 0 1 1 < 4 * (1 - 0) ∧
        2 * (1 - 0) ≤ calculate_partial_integral_q 0 1 1 ∧
        calculate_partial_integral_q 0 1 1 ≤ 4 * (1 - 0)) :=
  ⟨le_refl 0, by norm_num, le_refl 1, le_refl 1,
    claim_C8_result_bounds 0 1 1 (le_refl 0) (by norm_num) (le_refl 1)
      (le_refl 1)⟩

/-- C9 (counterexample): the claimed exact identity
num_threads * (1.0 / num_threads) = 1.0 fails in IEEE-754 binary64: at
num_threads = 49 the end of the last thread interval is
fl(49 * fl(1 / 49)) = 1 - 2^-53, not 1.0, so the union of the intervals
does not span exactly [0, 1]. -/
theorem claim_C9_counterexample : threadEndD 49 48 ≠ 1 := by
  have h : mulIntD 49 (threadRangeD 49) = (9007199254740991, -53) := by decide
  unfold threadEndD
  push_cast
  rw [h]
  unfold dyadicToRat
  have h1 : ((- -53 : ℤ)).toNat = 53 := by decide
  have h2 : ((-53 : ℤ)).toNat = 0 := by decide
  have h3 : ((53 : ℤ)).toNat = 53 := by decide
  norm_num [h1, h2, h3]

/-- C9 (amended): under binary64 rounding the thread intervals are
contiguous, the end double of thread i being the very same computation
(i + 1) * range_per_thread as the start double of thread i + 1, and thread
0 starts at exactly 0.0; but the last interval's end
num_threads * (1.0 / num_threads) need not be exactly 1.0 (see the
counterexample at num_threads = 49). -/
theorem claim_C9_contiguous_and_zero_start (t i : ℕ) :
    threadEndD t i = threadStartD t (i + 1) ∧ threadStartD t 0 = 0 := by
  constructor
  · unfold threadEndD threadStartD
    push_cast
    ring_nf
  · unfold threadStartD
    norm_num [mulIntD, dyadicToRat]

/-- C10: calculate_partial_integral is pure and deterministic.  As a
transformer of the program's global state its body leaves the state
untouched for every starting state, two runs from arbitrary (even
different) global states return equal values, running it twice in sequence
returns the identical value both times, and the value is the function of
the parameters alone given by calculate_partial_integral. -/
theorem claim_C10_pure_deterministic (g g' : ProgramGlobals) (s e : FV)
    (n : ℕ) :
    (calculate_partial_integral_st g s e n).1
        = (calculate_partial_integral_st g' s e n).1 ∧
    (calculate_partial_integral_st g s e n).2 = g ∧
    (calculate_partial_integral_st
        (calculate_partial_integral_st g s e n).2 s e n).1
      = (calculate_partial_integral_st g s e n).1 ∧
    (calculate_partial_integral_st g s e n).1
      = calculate_partial_integral s e n :=
  ⟨rfl, rfl, rfl, rfl⟩
